import Mathlib

/-!
# files_to_burn: the classification sweep of `src/main.cpp`

A shallow embedding of `splitmd5`, `loadMD5File`, `findFiles`, `computeMD5`,
`checkFile` and `check_files`, followed by the properties proved about them.

Conventions of the embedding:

* a `std::string` is a `List Char`; string constants are written `"...".toList`;
* a `std::set<std::string>` is the list of its elements in iteration order
  (sorted, duplicate free), built with `set_insert`;
* a `std::vector` is a `List`;
* code that can throw, exit or run into undefined behaviour returns
  `Except Fault _`;
* `size_t` arithmetic is reduced modulo `2 ^ 64`, `int` is a 32 bit signed
  integer;
* the outside world (the `md5sum` pipe, the directory tree, the manifest text)
  is an explicit argument;
* the program is compiled without `DEBUG`: the only line a call of `checkFile`
  writes to the standard output is the file it found new.
-/

namespace FilesToBurn

/-! ## Data model -/

abbrev path_t := List Char
abbrev md5_t := List Char
abbrev files_t := List path_t
abbrev files_set_t := List path_t

/-- The struct `md5_tuple_t`: one manifest record. -/
structure md5_tuple_t where
  md5 : md5_t
  filePath : path_t
deriving DecidableEq, Repr

/-- Ways in which a run leaves the normal control flow. -/
inductive Fault where
  /-- `std::out_of_range` thrown by `std::string::substr` (never caught). -/
  | out_of_range
  /-- `exit(1)` after printing "Unable to open pipe". -/
  | exit_1
  /-- Overflow of a signed `int` (undefined behaviour). -/
  | signed_overflow
  /-- `operator[]` of a vector past its end (undefined behaviour). -/
  | bad_index
  /-- `std::filesystem::filesystem_error` thrown while scanning (never caught). -/
  | filesystem_error
  /-- The fuel of a loop of the model ran out; not a behaviour of the program. -/
  | out_of_fuel
deriving DecidableEq, Repr

instance {ε α : Type} [DecidableEq ε] [DecidableEq α] : DecidableEq (Except ε α)
  | .ok a, .ok b =>
    if h : a = b then isTrue (by rw [h]) else isFalse (fun h2 => h (Except.ok.inj h2))
  | .error a, .error b =>
    if h : a = b then isTrue (by rw [h]) else isFalse (fun h2 => h (Except.error.inj h2))
  | .ok _, .error _ => isFalse (fun h => Except.noConfusion h)
  | .error _, .ok _ => isFalse (fun h => Except.noConfusion h)

/-! ## Library operations -/

/-- Subtraction of two `size_t` values: the result wraps modulo `2 ^ 64`. -/
def size_t_sub (a b : Nat) : Nat := (a + 2 ^ 64 - b) % 2 ^ 64

/-- Conversion of a `size_t` to `int`: the value is reduced modulo `2 ^ 32` into
the range `[-2 ^ 31, 2 ^ 31)`. -/
def to_int (n : Nat) : Int :=
  if n % 2 ^ 32 < 2 ^ 31 then ((n % 2 ^ 32 : Nat) : Int) else ((n % 2 ^ 32 : Nat) : Int) - 2 ^ 32

/-- The largest `int`. -/
def INT_MAX : Int := 2 ^ 31 - 1

/-- The call `s.substr(pos, n)`: throws when `pos > s.size()`, otherwise the at
most `n` characters from `pos` on. -/
def substr (s : List Char) (pos n : Nat) : Except Fault (List Char) :=
  if pos > s.length then .error .out_of_range else .ok ((s.drop pos).take n)

/-- The call `s.substr(pos)`, whose count defaults to `npos`: throws when
`pos > s.size()`, otherwise everything from `pos` on. -/
def substr_from (s : List Char) (pos : Nat) : Except Fault (List Char) :=
  if pos > s.length then .error .out_of_range else .ok (s.drop pos)

/-- The call `s.insert(x)` on a `std::set<std::string>`: nothing changes when `x`
is present, otherwise `x` takes its place in the order. -/
def set_insert (x : List Char) (s : List (List Char)) : List (List Char) :=
  if x ∈ s then s else List.orderedInsert (fun a b => a ≤ b) x s

/-- The expression `fs::path(p) / q` read back with `.string()`, on a POSIX system:
an absolute `q` replaces `p`; otherwise a separator is added when `p` has a
filename (is not empty and does not end in a separator), then `q`. -/
def path_append (p q : path_t) : path_t :=
  if q.head? = some '/' then q
  else if p ≠ [] ∧ p.getLast? ≠ some '/' then p ++ '/' :: q
  else p ++ q

/-! ## `splitmd5` -/

/-- The function `splitmd5`: the loop over `data`, on the two sets passed by
reference. -/
def splitmd5 : List md5_tuple_t → List md5_t → files_set_t →
    Except Fault (List md5_t × files_set_t)
  | [], md5, files => .ok (md5, files)
  | m :: data, md5, files => do
    let md5 := set_insert m.md5 md5
    let files := set_insert m.filePath files
    let files := set_insert (m.filePath ++ ".xz".toList) files
    let ext ← substr_from m.filePath (size_t_sub m.filePath.length 3)
    if ext = ".xz".toList then
      let stem ← substr m.filePath 0 (size_t_sub m.filePath.length 3)
      splitmd5 data md5 (set_insert stem files)
    else
      splitmd5 data md5 files

/-! ## `loadMD5File` -/

/-- The lines that successive `std::getline` calls extract from a stream holding
`text`; `line` is the part of the current line read so far. A call that meets the
end of the stream before any character fails and ends the loop. -/
def getlines : List Char → List Char → List (List Char)
  | [], line => if line = [] then [] else [line]
  | c :: cs, line => if c = '\n' then line :: getlines cs [] else getlines cs (line ++ [c])

/-- The body of the `while (std::getline(file, line))` loop of `loadMD5File`, over
the lines still to come. -/
def loadLoop : List (List Char) → List md5_tuple_t → Except Fault (List md5_tuple_t)
  | [], result => .ok result
  | line :: rest, result =>
    if line.length > 0 then do
      let md5 ← substr line 0 32
      let filePath ← substr_from line 34
      let head ← substr filePath 0 2
      let filePath ← if head = "./".toList then substr_from filePath 2 else pure filePath
      loadLoop rest (result ++ [⟨md5, filePath⟩])
    else
      loadLoop rest result

/-- The function `loadMD5File`, on the content of the file at `md5FilePath` (a file
that cannot be opened reads as the empty text). -/
def loadMD5File (text : List Char) : Except Fault (List md5_tuple_t) :=
  loadLoop (getlines text []) []

/-! ## `findFiles` -/

/-- A node of the directory tree below `folderPath`. For a symbolic link, `status`
is what following the link gives: `some true` when it leads to a regular file,
`some false` when it leads to anything else or nowhere, `none` when it cannot be
followed (a loop of links, a directory on the way that cannot be searched); `resolved`
is the path `fs::relative` computes for the link, that is the path of the resolved
target relative to the resolved `folderPath`. A directory that is not `readable`
cannot be opened. -/
inductive Node where
  | file (name : List Char)
  | other (name : List Char)
  | link (name : List Char) (status : Option Bool) (resolved : path_t)
  | dir (name : List Char) (readable : Bool) (children : List Node)

/-- The name of a node in its directory. -/
def Node.name : Node → List Char
  | .file name => name
  | .other name => name
  | .link name _ _ => name
  | .dir name _ _ => name

/-- An entry handed out by `fs::recursive_directory_iterator`: the names on the way
from `folderPath` down to it, and the node found there. -/
structure directory_entry where
  segments : List (List Char)
  node : Node

mutual
/-- The steps of `fs::recursive_directory_iterator` (default options) on one node
below the directory reached by `parent`: the entry of the node, then, for a directory,
its content; a link to a directory is not followed. `none` is an increment that throws
`std::filesystem::filesystem_error`, on a directory that cannot be opened. -/
def iterate_node (parent : List (List Char)) : Node → List (Option directory_entry)
  | .file name => [some ⟨parent ++ [name], .file name⟩]
  | .other name => [some ⟨parent ++ [name], .other name⟩]
  | .link name status resolved => [some ⟨parent ++ [name], .link name status resolved⟩]
  | .dir name readable children =>
    some ⟨parent ++ [name], .dir name readable children⟩ ::
      (if readable then iterate_nodes (parent ++ [name]) children else [none])
/-- The steps for the nodes of one directory, in listing order. -/
def iterate_nodes (parent : List (List Char)) : List Node → List (Option directory_entry)
  | [] => []
  | n :: ns => iterate_node parent n ++ iterate_nodes parent ns
end

/-- The tree itself: `At folder segs n` says that node `n` lies below the directory of
content `folder`, the names on the way down to it, its own name last, being `segs`. -/
inductive At : List Node → List (List Char) → Node → Prop
  | top (folder : List Node) (n : Node) : n ∈ folder → At folder [n.name] n
  | inside (folder : List Node) (name : List Char) (readable : Bool) (children : List Node)
      (segs : List (List Char)) (n : Node) :
      Node.dir name readable children ∈ folder → At children segs n →
      At folder (name :: segs) n

/-! ## `computeMD5` and `checkFile` -/

/-- What `popen(command, "r")` gives: `none` when the pipe cannot be opened,
otherwise everything the command writes to its standard output. -/
abbrev Shell := List Char → Option (List Char)

/-- The function `computeMD5`. -/
def computeMD5 (popen : Shell) (filePath : path_t) : Except Fault md5_t :=
  match popen ("md5sum \"".toList ++ filePath ++ "\"".toList) with
  | some result => substr result 0 32
  | none => .error .exit_1

/-- The `return` statement at which a call of `checkFile` ends; the names are those
of the debug messages. Only `Valid` prints the file. -/
inductive Outcome where
  | Ignored
  | Burnt
  | IgnoredByMd5
  | Valid
deriving DecidableEq, Repr

/-- The first loop of `checkFile`: `true` when it returns from inside the loop. -/
def ignoreLoop (file : path_t) : List path_t → Except Fault Bool
  | [] => .ok false
  | i :: rest => do
    let start ← substr file 0 i.length
    if start = i then pure true else ignoreLoop file rest

/-- The function `checkFile`. -/
def checkFile (popen : Shell) (file : path_t) (md5 : List md5_t) (burnt ignored : files_set_t)
    (rootFolder : path_t) : Except Fault Outcome := do
  if (← ignoreLoop file ignored) then
    pure .Ignored
  else if file ∈ burnt then
    pure .Burnt
  else
    let abspath := path_append rootFolder file
    let md5File ← computeMD5 popen abspath
    if md5File ∈ md5 then pure .IgnoredByMd5 else pure .Valid

/-- The lines a call of `checkFile` on `file` writes to the standard output. -/
def Outcome.printed (file : path_t) : Outcome → List path_t
  | .Valid => [file]
  | _ => []

/-! ## `check_files` -/

/-- One call `checkFile(files[index], ...)` made by a thread, with the statement at
which it returned. -/
structure Check where
  index : Nat
  file : path_t
  outcome : Outcome
deriving DecidableEq, Repr

/-- The lambda `threadFunction` of `check_files`: the loop
`for (int i = start; i < end; i += stride) checkFile(files[i], ...)`, returning the
calls of `checkFile` it made, in order. -/
def threadFunction (popen : Shell) (files : files_t) (md5 : List md5_t)
    (burnt ignored : files_set_t) (rootFolder : path_t) :
    Nat → Int → Int → Int → Except Fault (List Check)
  | 0, i, end_, _ => if i < end_ then .error .out_of_fuel else .ok []
  | fuel + 1, i, end_, stride =>
    if i < end_ then
      if i < 0 then .error .bad_index
      else
        match files[i.toNat]? with
        | none => .error .bad_index
        | some file =>
          match checkFile popen file md5 burnt ignored rootFolder with
          | .error e => .error e
          | .ok o =>
            if i + stride > INT_MAX then .error .signed_overflow
            else
              match threadFunction popen files md5 burnt ignored rootFolder fuel
                  (i + stride) end_ stride with
              | .error e => .error e
              | .ok trace => .ok (⟨i.toNat, file, o⟩ :: trace)
    else .ok []

/-- Waiting for all threads: the traces of the threads, or the first fault. -/
def joinThreads {α : Type} : List (Except Fault α) → Except Fault (List α)
  | [] => .ok []
  | .error e :: _ => .error e
  | .ok t :: rest =>
    match joinThreads rest with
    | .error e => .error e
    | .ok ts => .ok (t :: ts)

/-- The function `check_files` (`numThreads` is a `uint8_t`): thread `i` runs
`threadFunction(i, files.size(), numThreads)`; the result holds one trace per
thread. -/
def check_files (popen : Shell) (fuel : Nat) (files : files_t) (md5 : List md5_t)
    (burnt ignored : files_set_t) (rootFolder : path_t) (numThreads : Nat) :
    Except Fault (List (List Check)) :=
  joinThreads ((List.range numThreads).map fun (i : Nat) =>
    threadFunction popen files md5 burnt ignored rootFolder fuel
      (Int.ofNat i) (to_int files.length) (Int.ofNat numThreads))

/-- What one thread prints, in its own order. -/
def threadOutput (trace : List Check) : List path_t :=
  trace.flatMap fun c => c.outcome.printed c.file

/-- The standard output of concurrent threads: every print is made under the
mutex, so the output is some interleaving of what each thread prints. -/
inductive Interleave {α : Type} : List (List α) → List α → Prop
  | done (ls : List (List α)) : (∀ l ∈ ls, l = []) → Interleave ls []
  | step (before after : List (List α)) (x : α) (l out : List α) :
      Interleave (before ++ l :: after) out →
      Interleave (before ++ (x :: l) :: after) (x :: out)

/-- The possible contents of the standard output after `check_files`, given the
traces of its threads. -/
def Stdout (traces : List (List Check)) (out : List path_t) : Prop :=
  Interleave (traces.map threadOutput) out

/-! ## Library lemmas -/

theorem substr_zero (s : List Char) (n : Nat) : substr s 0 n = .ok (s.take n) := by
  simp [substr]

theorem mem_set_insert (y x : List Char) (s : List (List Char)) :
    y ∈ set_insert x s ↔ y = x ∨ y ∈ s := by
  unfold set_insert
  split
  · constructor
    · intro h; exact Or.inr h
    · rintro (h | h)
      · subst h; assumption
      · exact h
  · simp [List.mem_orderedInsert]

theorem size_t_sub_of_le (a b : Nat) (hb : b ≤ a) (ha : a < 2 ^ 64) : size_t_sub a b = a - b := by
  unfold size_t_sub
  have : a + 2 ^ 64 - b = (a - b) + 2 ^ 64 := by omega
  rw [this, Nat.add_mod_right, Nat.mod_eq_of_lt (by omega)]

theorem size_t_sub_of_lt (a b : Nat) (hb : a < b) :
    size_t_sub a b = a + 2 ^ 64 - b := by
  unfold size_t_sub
  rw [Nat.mod_eq_of_lt (by omega)]

theorem drop_eq_suffix_iff (p s : List Char) (hs : s.length ≤ p.length) :
    p.drop (p.length - s.length) = s ↔ p = p.take (p.length - s.length) ++ s := by
  constructor
  · intro h
    conv_lhs => rw [← List.take_append_drop (p.length - s.length) p]
    rw [h]
  · intro h
    have hl : (p.take (p.length - s.length)).length = p.length - s.length := by
      rw [List.length_take]; omega
    have key : ∀ (t q : List Char) (n : Nat), t.length = n → q = t ++ s → q.drop n = s := by
      intro t q n hn hq
      subst hq
      exact List.drop_left' hn
    exact key _ p _ hl h

/-! ## `splitmd5` -/

/-- One round of `splitmd5` on a record whose path has at least 3 characters. -/
theorem splitmd5_cons_long (m : md5_tuple_t) (data : List md5_tuple_t) (md5 : List md5_t)
    (files : files_set_t) (h3 : 3 ≤ m.filePath.length) (h64 : m.filePath.length < 2 ^ 64) :
    splitmd5 (m :: data) md5 files =
      if m.filePath.drop (m.filePath.length - 3) = ".xz".toList then
        splitmd5 data (set_insert m.md5 md5)
          (set_insert (m.filePath.take (m.filePath.length - 3))
            (set_insert (m.filePath ++ ".xz".toList) (set_insert m.filePath files)))
      else
        splitmd5 data (set_insert m.md5 md5)
          (set_insert (m.filePath ++ ".xz".toList) (set_insert m.filePath files)) := by
  have hsub : size_t_sub m.filePath.length 3 = m.filePath.length - 3 :=
    size_t_sub_of_le _ _ h3 h64
  have hle : ¬ m.filePath.length - 3 > m.filePath.length := by omega
  rw [splitmd5, hsub]
  unfold substr_from substr
  rw [if_neg hle, if_neg (Nat.not_lt_zero _)]
  by_cases hx : m.filePath.drop (m.filePath.length - 3) = ".xz".toList
  · rw [if_pos hx]
    show (if m.filePath.drop (m.filePath.length - 3) = ".xz".toList then _ else _) = _
    rw [if_pos hx]
    rfl
  · rw [if_neg hx]
    show (if m.filePath.drop (m.filePath.length - 3) = ".xz".toList then _ else _) = _
    rw [if_neg hx]

/-- One round of `splitmd5` on a record whose path has fewer than 3 characters:
`size() - 3` wraps around and `substr` throws. -/
theorem splitmd5_cons_short (m : md5_tuple_t) (data : List md5_tuple_t) (md5 : List md5_t)
    (files : files_set_t) (h3 : m.filePath.length < 3) :
    splitmd5 (m :: data) md5 files = .error .out_of_range := by
  have hsub : size_t_sub m.filePath.length 3 = m.filePath.length + 2 ^ 64 - 3 :=
    size_t_sub_of_lt _ _ h3
  have hgt : m.filePath.length + 2 ^ 64 - 3 > m.filePath.length := by omega
  rw [splitmd5, hsub]
  unfold substr_from
  rw [if_pos hgt]
  rfl

theorem splitmd5_spec (data : List md5_tuple_t)
    (h : ∀ r ∈ data, 3 ≤ r.filePath.length ∧ r.filePath.length < 2 ^ 64) :
    ∀ (md5 : List md5_t) (files : files_set_t),
    ∃ md5' files', splitmd5 data md5 files = .ok (md5', files') ∧
      (∀ d, d ∈ md5' ↔ d ∈ md5 ∨ ∃ r ∈ data, d = r.md5) ∧
      (∀ s, s ∈ files' ↔ s ∈ files ∨ ∃ r ∈ data,
        s = r.filePath ∨ s = r.filePath ++ ".xz".toList ∨ r.filePath = s ++ ".xz".toList) := by
  induction data with
  | nil =>
    intro md5 files
    exact ⟨md5, files, rfl, by simp, by simp⟩
  | cons m data ih =>
    intro md5 files
    have hm := h m (List.mem_cons_self _ _)
    have hrest : ∀ r ∈ data, 3 ≤ r.filePath.length ∧ r.filePath.length < 2 ^ 64 :=
      fun r hr => h r (List.mem_cons_of_mem _ hr)
    have hsuf := drop_eq_suffix_iff m.filePath ".xz".toList (by simpa using hm.1)
    have hlen : (".xz".toList).length = 3 := rfl
    rw [hlen] at hsuf
    rw [splitmd5_cons_long m data md5 files hm.1 hm.2]
    by_cases hx : m.filePath.drop (m.filePath.length - 3) = ".xz".toList
    · rw [if_pos hx]
      obtain ⟨md5', files', hrun, hmd5, hfiles⟩ := ih hrest (set_insert m.md5 md5)
        (set_insert (m.filePath.take (m.filePath.length - 3))
          (set_insert (m.filePath ++ ".xz".toList) (set_insert m.filePath files)))
      refine ⟨md5', files', hrun, ?_, ?_⟩
      · intro d
        rw [hmd5, mem_set_insert]
        simp only [List.mem_cons, exists_eq_or_imp]
        generalize (∃ r ∈ data, d = r.md5) = E
        tauto
      · intro s
        rw [hfiles, mem_set_insert, mem_set_insert, mem_set_insert]
        simp only [List.mem_cons, exists_eq_or_imp]
        have hstem : s = m.filePath.take (m.filePath.length - 3) ↔
            m.filePath = s ++ ".xz".toList := by
          constructor
          · intro hs; rw [hs]; exact hsuf.mp hx
          · intro hs
            have := congrArg (List.take (m.filePath.length - 3)) hs
            rw [this, List.take_left']
            have := congrArg List.length hs
            simp at this
            omega
        rw [hstem]
        generalize (∃ r ∈ data, s = r.filePath ∨ s = r.filePath ++ ".xz".toList ∨
          r.filePath = s ++ ".xz".toList) = E
        tauto
    · rw [if_neg hx]
      obtain ⟨md5', files', hrun, hmd5, hfiles⟩ := ih hrest (set_insert m.md5 md5)
        (set_insert (m.filePath ++ ".xz".toList) (set_insert m.filePath files))
      refine ⟨md5', files', hrun, ?_, ?_⟩
      · intro d
        rw [hmd5, mem_set_insert]
        simp only [List.mem_cons, exists_eq_or_imp]
        generalize (∃ r ∈ data, d = r.md5) = E
        tauto
      · intro s
        rw [hfiles, mem_set_insert, mem_set_insert]
        simp only [List.mem_cons, exists_eq_or_imp]
        have hstem : ¬ m.filePath = s ++ ".xz".toList := by
          intro hs
          apply hx
          have hl := congrArg List.length hs
          simp at hl
          have : m.filePath.length - 3 = s.length := by omega
          rw [this, hs]
          exact List.drop_left' rfl
        generalize (∃ r ∈ data, s = r.filePath ∨ s = r.filePath ++ ".xz".toList ∨
          r.filePath = s ++ ".xz".toList) = E
        tauto

/-- C2: after `splitmd5` on records whose paths have at least 3 characters (and, as
every `std::string`, fewer than `2 ^ 64`), started on empty sets, a string is in the
set of known paths exactly when it is the path of a record, the path of a record
followed by ".xz", or the path of a record with a final ".xz" removed. -/
theorem splitmd5_known_paths (data : List md5_tuple_t)
    (h3 : ∀ r ∈ data, 3 ≤ r.filePath.length)
    (h64 : ∀ r ∈ data, r.filePath.length < 2 ^ 64) :
    ∃ md5 files, splitmd5 data [] [] = .ok (md5, files) ∧
      ∀ s, s ∈ files ↔ ∃ r ∈ data,
        s = r.filePath ∨ s = r.filePath ++ ".xz".toList ∨ r.filePath = s ++ ".xz".toList := by
  obtain ⟨md5, files, hrun, -, hfiles⟩ :=
    splitmd5_spec data (fun r hr => ⟨h3 r hr, h64 r hr⟩) [] []
  refine ⟨md5, files, hrun, fun s => ?_⟩
  rw [hfiles]
  simp

/-- The two records of the compressed-suffix symmetry: "a/b.txt" makes "a/b.txt" and
"a/b.txt.xz" known, and "a/b.txt.xz" makes "a/b.txt.xz" and "a/b.txt" known. -/
theorem splitmd5_known_paths_witness :
    (∃ md5 files, splitmd5 [⟨"d".toList, "a/b.txt".toList⟩] [] [] = .ok (md5, files) ∧
      "a/b.txt".toList ∈ files ∧ "a/b.txt.xz".toList ∈ files) ∧
    (∃ md5 files, splitmd5 [⟨"d".toList, "a/b.txt.xz".toList⟩] [] [] = .ok (md5, files) ∧
      "a/b.txt.xz".toList ∈ files ∧ "a/b.txt".toList ∈ files) := by
  constructor
  · obtain ⟨md5, files, hrun, hfiles⟩ :=
      splitmd5_known_paths [⟨"d".toList, "a/b.txt".toList⟩] (by decide) (by decide)
    exact ⟨md5, files, hrun, (hfiles _).mpr ⟨_, List.mem_singleton_self _, Or.inl rfl⟩,
      (hfiles _).mpr ⟨_, List.mem_singleton_self _, Or.inr (Or.inl rfl)⟩⟩
  · obtain ⟨md5, files, hrun, hfiles⟩ :=
      splitmd5_known_paths [⟨"d".toList, "a/b.txt.xz".toList⟩] (by decide) (by decide)
    exact ⟨md5, files, hrun, (hfiles _).mpr ⟨_, List.mem_singleton_self _, Or.inl rfl⟩,
      (hfiles _).mpr ⟨_, List.mem_singleton_self _, Or.inr (Or.inr rfl)⟩⟩

/-- C3: a record whose path has fewer than 3 characters makes `splitmd5` end with an
uncaught `std::out_of_range`: `m.filePath.size() - 3` wraps around to a position past
the end of the path, and `substr` throws at it. The run does not complete. -/
theorem splitmd5_short_path_throws (m : md5_tuple_t) (data : List md5_tuple_t)
    (md5 : List md5_t) (files : files_set_t) (h : m.filePath.length < 3) :
    splitmd5 (m :: data) md5 files = .error .out_of_range :=
  splitmd5_cons_short m data md5 files h

/-- The manifest line of a file named "ab": `loadMD5File` reads it into a record, and
`splitmd5` throws on that record. -/
theorem splitmd5_short_path_throws_witness :
    loadMD5File "0123456789abcdef0123456789abcdef  ab".toList =
      .ok [⟨"0123456789abcdef0123456789abcdef".toList, "ab".toList⟩] ∧
    ("ab".toList).length < 3 ∧
    splitmd5 [⟨"0123456789abcdef0123456789abcdef".toList, "ab".toList⟩] [] [] =
      .error .out_of_range :=
  ⟨by decide, by decide, splitmd5_short_path_throws ⟨_, "ab".toList⟩ [] [] [] (by decide)⟩

/-! ## `loadMD5File` -/

theorem loadLoop_spec (lines : List (List Char))
    (h : ∀ line ∈ lines, line ≠ [] → 34 ≤ line.length) (result : List md5_tuple_t) :
    loadLoop lines result =
      .ok (result ++ (lines.filter fun line => line ≠ []).map fun line =>
        (⟨line.take 32, if (line.drop 34).take 2 = "./".toList then (line.drop 34).drop 2
          else line.drop 34⟩ : md5_tuple_t)) := by
  induction lines generalizing result with
  | nil => simp [loadLoop]
  | cons line rest ih =>
    have hrest : ∀ l ∈ rest, l ≠ [] → 34 ≤ l.length :=
      fun l hl => h l (List.mem_cons_of_mem _ hl)
    rw [loadLoop]
    by_cases hne : line = []
    · subst hne
      simp [ih hrest]
    · have hlen := h line (List.mem_cons_self _ _) hne
      have hpos : line.length > 0 := by omega
      have h34 : ¬ 34 > line.length := by omega
      have hf : (line :: rest).filter (fun l => l ≠ []) =
          line :: rest.filter (fun l => l ≠ []) := by simp [hne]
      rw [if_pos hpos, hf, List.map_cons]
      simp only [substr, substr_from, h34, if_false, Nat.not_lt_zero, gt_iff_lt, bind,
        Except.bind, List.drop_zero]
      by_cases hd : (line.drop 34).take 2 = "./".toList
      · have hl2 : ¬ (line.drop 34).length < 2 := by
          intro hlt
          have hlen2 : ((line.drop 34).take 2).length = 2 := by rw [hd]; rfl
          rw [List.length_take] at hlen2
          omega
        simp only [hd, if_true, hl2, if_false]
        rw [ih hrest, List.append_assoc]
        rfl
      · simp only [hd, if_false, pure, Except.pure]
        rw [ih hrest, List.append_assoc]
        rfl

theorem getlines_filter (text line : List Char) :
    (getlines text line).filter (fun l => l ≠ []) =
      ((text.splitOn '\n').modifyHead fun l => line ++ l).filter (fun l => l ≠ []) := by
  induction text generalizing line with
  | nil =>
    rw [getlines]
    by_cases h : line = [] <;> simp [h, List.splitOn]
  | cons c cs ih =>
    rw [getlines, List.splitOn, List.splitOnP_cons]
    by_cases hc : c = '\n'
    · subst hc
      have h0 := ih []
      simp only [List.nil_append] at h0
      have hid : (List.modifyHead (fun l : List Char => l)) = id := List.modifyHead_id
      rw [hid] at h0
      simp only [id, List.splitOn] at h0
      simp only [if_true, beq_self_eq_true, List.modifyHead_cons, List.append_nil,
        List.filter_cons, h0]
    · have h1 := ih (line ++ [c])
      simp only [List.splitOn] at h1
      have hb : (c == '\n') = false := by simpa using hc
      simp only [hc, if_false, hb, h1, List.modifyHead_modifyHead, Function.comp_def,
        List.append_assoc, List.singleton_append, Bool.false_eq_true]

theorem getlines_filter_nil (text : List Char) :
    (getlines text []).filter (fun l => l ≠ []) =
      (text.splitOn '\n').filter (fun l => l ≠ []) := by
  have h := getlines_filter text []
  have hid : (List.modifyHead (fun l : List Char => [] ++ l)) = id := by
    funext l; cases l <;> simp
  rw [hid] at h
  exact h

/-- C9: on a manifest text whose non-empty lines all have at least 34 characters,
`loadMD5File` returns, without a fault, one record per non-empty line in line order:
the digest is the first 32 characters, the path is the text from index 34 on, without
a leading "./". Empty lines give no record. -/
theorem loadMD5File_records (text : List Char)
    (h : ∀ line ∈ text.splitOn '\n', line ≠ [] → 34 ≤ line.length) :
    loadMD5File text =
      .ok (((text.splitOn '\n').filter fun line => line ≠ []).map fun line =>
        (⟨line.take 32, if (line.drop 34).take 2 = "./".toList then (line.drop 34).drop 2
          else line.drop 34⟩ : md5_tuple_t)) := by
  have hg : ∀ line ∈ getlines text [], line ≠ [] → 34 ≤ line.length := by
    intro line hl hne
    have hmem : line ∈ (getlines text []).filter (fun l => l ≠ []) :=
      List.mem_filter.mpr ⟨hl, by simpa using hne⟩
    rw [getlines_filter_nil] at hmem
    exact h line (List.mem_filter.mp hmem).1 hne
  unfold loadMD5File
  rw [loadLoop_spec _ hg, getlines_filter_nil, List.nil_append]

/-- A manifest of two records around an empty line, and the empty manifest. -/
theorem loadMD5File_records_witness :
    loadMD5File "0123456789abcdef0123456789abcdef  ./x/f1.bin\n\nfedcba9876543210fedcba9876543210  y/f2\n".toList =
      .ok [⟨"0123456789abcdef0123456789abcdef".toList, "x/f1.bin".toList⟩,
        ⟨"fedcba9876543210fedcba9876543210".toList, "y/f2".toList⟩] ∧
    loadMD5File [] = .ok [] :=
  ⟨(loadMD5File_records _ (by decide)).trans (by decide),
    (loadMD5File_records [] (by decide)).trans (by decide)⟩

/-! ## `checkFile` -/

theorem ignoreLoop_spec (file : path_t) (ignored : List path_t) :
    ignoreLoop file ignored = .ok (decide (∃ i ∈ ignored, i <+: file)) := by
  induction ignored with
  | nil => simp [ignoreLoop]
  | cons i rest ih =>
    rw [ignoreLoop, substr_zero]
    by_cases h : file.take i.length = i
    · have hp : i <+: file := List.prefix_iff_eq_take.mpr h.symm
      simp [bind, Except.bind, h, hp, pure, Except.pure]
    · have hp : ¬ i <+: file := fun hp => h (List.prefix_iff_eq_take.mp hp).symm
      simp [bind, Except.bind, h, hp, ih]

theorem ignoreLoop_true_iff (file : path_t) (ignored : List path_t) :
    ignoreLoop file ignored = .ok true ↔ ∃ i ∈ ignored, i <+: file := by
  rw [ignoreLoop_spec]
  constructor
  · intro h
    exact of_decide_eq_true (Except.ok.inj h)
  · intro h
    rw [decide_eq_true h]

theorem ignoreLoop_false_iff (file : path_t) (ignored : List path_t) :
    ignoreLoop file ignored = .ok false ↔ ¬ ∃ i ∈ ignored, i <+: file := by
  rw [ignoreLoop_spec]
  constructor
  · intro h
    exact of_decide_eq_false (Except.ok.inj h)
  · intro h
    rw [decide_eq_false h]

/-- The value of `checkFile` as a case distinction. -/
theorem checkFile_eq (popen : Shell) (file : path_t) (md5 : List md5_t)
    (burnt ignored : files_set_t) (rootFolder : path_t) :
    checkFile popen file md5 burnt ignored rootFolder =
      if ∃ i ∈ ignored, i <+: file then .ok .Ignored
      else if file ∈ burnt then .ok .Burnt
      else match computeMD5 popen (path_append rootFolder file) with
        | .error e => .error e
        | .ok md5File => if md5File ∈ md5 then .ok .IgnoredByMd5 else .ok .Valid := by
  unfold checkFile
  rw [ignoreLoop_spec]
  by_cases hi : ∃ i ∈ ignored, i <+: file
  · simp only [hi, decide_True, bind, Except.bind, if_true, pure, Except.pure]
  · simp only [hi, decide_False, bind, Except.bind, if_false, pure, Except.pure,
      Bool.false_eq_true]
    by_cases hb : file ∈ burnt
    · simp only [hb, if_true]
    · simp only [hb, if_false]
      cases computeMD5 popen (path_append rootFolder file) with
      | error e => rfl
      | ok d => by_cases hd : d ∈ md5 <;> simp only [hd, if_true, if_false]

theorem computeMD5_total (run : List Char → List Char) (filePath : path_t) :
    computeMD5 (fun c => some (run c)) filePath =
      .ok ((run ("md5sum \"".toList ++ filePath ++ "\"".toList)).take 32) := by
  simp only [computeMD5, substr_zero]

/-- C6: the ignore test of `checkFile` succeeds exactly when some member of the ignore
set is a prefix of the path, character by character; `checkFile` then returns at
once, whatever the pipe does. The empty set and a member longer than the path never
match; "ab" matches "abc/file", "AB" does not. -/
theorem ignore_test_is_prefix_match (popen : Shell) (file : path_t) (md5 : List md5_t)
    (burnt ignored : files_set_t) (rootFolder : path_t) :
    (ignoreLoop file ignored = .ok true ↔ ∃ i ∈ ignored, i <+: file) ∧
    (ignoreLoop file ignored = .ok false ↔ ¬ ∃ i ∈ ignored, i <+: file) ∧
    (checkFile popen file md5 burnt ignored rootFolder = .ok .Ignored ↔
      ∃ i ∈ ignored, i <+: file) ∧
    ignoreLoop file [] = .ok false ∧
    (∀ i : path_t, file.length < i.length → ignoreLoop file [i] = .ok false) ∧
    ignoreLoop "abc/file".toList ["ab".toList] = .ok true ∧
    ignoreLoop "abc/file".toList ["AB".toList] = .ok false := by
  refine ⟨ignoreLoop_true_iff _ _, ignoreLoop_false_iff _ _, ?_, rfl, ?_, by decide, by decide⟩
  · rw [checkFile_eq]
    by_cases hi : ∃ i ∈ ignored, i <+: file
    · simp only [hi, if_true]
    · simp only [hi, if_false, iff_false]
      by_cases hb : file ∈ burnt
      · simp only [hb, if_true]
        intro h; cases h
      · simp only [hb, if_false]
        cases computeMD5 popen (path_append rootFolder file) with
        | error e => intro h; cases h
        | ok d =>
          by_cases hd : d ∈ md5
          · simp only [hd, if_true]; intro h; cases h
          · simp only [hd, if_false]; intro h; cases h
  · intro i hlen
    rw [ignoreLoop_false_iff]
    rintro ⟨j, hj, hp⟩
    rw [List.mem_singleton] at hj
    subst hj
    have := hp.length_le
    omega

/-- C1: when the pipe to `md5sum` opens, `checkFile` returns normally, and it prints
the path exactly when no member of the ignore set is a prefix of the path, the path
is not in the set of known paths and the digest of `rootFolder / file` is not in the
set of known digests; otherwise it prints nothing. Whatever the pipe does, a path
with an ignore prefix or in the set of known paths is not printed. -/
theorem checkFile_prints_iff_new (run : List Char → List Char) (popen : Shell)
    (file : path_t) (md5 : List md5_t) (burnt ignored : files_set_t) (rootFolder : path_t) :
    (∃ o, checkFile (fun c => some (run c)) file md5 burnt ignored rootFolder = .ok o ∧
      (o.printed file = [file] ↔
        (¬ ∃ i ∈ ignored, i <+: file) ∧ file ∉ burnt ∧
        ∃ d, computeMD5 (fun c => some (run c)) (path_append rootFolder file) = .ok d ∧
          d ∉ md5) ∧
      (o.printed file = [] ↔
        ¬ ((¬ ∃ i ∈ ignored, i <+: file) ∧ file ∉ burnt ∧
        ∃ d, computeMD5 (fun c => some (run c)) (path_append rootFolder file) = .ok d ∧
          d ∉ md5))) ∧
    ((∃ i ∈ ignored, i <+: file) ∨ file ∈ burnt →
      ∃ o, checkFile popen file md5 burnt ignored rootFolder = .ok o ∧ o.printed file = []) := by
  constructor
  · rw [checkFile_eq, computeMD5_total]
    generalize (run ("md5sum \"".toList ++ path_append rootFolder file ++
      "\"".toList)).take 32 = dg
    by_cases hi : ∃ i ∈ ignored, i <+: file
    · exact ⟨.Ignored, by simp only [hi, if_true], by simp [Outcome.printed, hi],
        by simp [Outcome.printed, hi]⟩
    · by_cases hb : file ∈ burnt
      · exact ⟨.Burnt, by simp only [hi, hb, if_true, if_false],
          by simp [Outcome.printed, hb], by simp [Outcome.printed, hb]⟩
      · by_cases hd : dg ∈ md5
        · exact ⟨.IgnoredByMd5, by simp only [hi, hb, hd, if_true, if_false],
            by simp [Outcome.printed, hd], by simp [Outcome.printed, hd]⟩
        · exact ⟨.Valid, by simp only [hi, hb, hd, if_false],
            by simp [Outcome.printed, hi, hb, hd], by simp [Outcome.printed, hi, hb, hd]⟩
  · intro h
    rw [checkFile_eq]
    by_cases hi : ∃ i ∈ ignored, i <+: file
    · exact ⟨.Ignored, by simp only [hi, if_true], rfl⟩
    · have hb : file ∈ burnt := h.resolve_left hi
      exact ⟨.Burnt, by simp only [hi, hb, if_true, if_false], rfl⟩

/-- A candidate "x/a" with an ignore prefix, one known by path, and a new one. -/
theorem checkFile_prints_iff_new_witness :
    (∃ o, checkFile (fun _ => none) "x/a".toList [] [] ["x/".toList] "r".toList = .ok o ∧
      o.printed "x/a".toList = []) ∧
    (∃ o, checkFile (fun _ => some "0123".toList) "x/a".toList [] [] [] "r".toList = .ok o ∧
      (o.printed "x/a".toList = ["x/a".toList] ↔
        (¬ ∃ i ∈ ([] : files_set_t), i <+: "x/a".toList) ∧ "x/a".toList ∉ ([] : files_set_t) ∧
        ∃ d, computeMD5 (fun _ => some "0123".toList) (path_append "r".toList "x/a".toList) =
          .ok d ∧ d ∉ ([] : List md5_t))) :=
  ⟨(checkFile_prints_iff_new (fun _ => []) (fun _ => none) "x/a".toList [] [] ["x/".toList]
      "r".toList).2 (Or.inl ⟨"x/".toList, by decide, by decide⟩),
    (checkFile_prints_iff_new (fun _ => "0123".toList) (fun _ => none) "x/a".toList [] [] []
      "r".toList).1.imp fun _ h => ⟨h.1, h.2.1⟩⟩

/-- The candidates "abc/file" and "x/abc" against the ignore set with "ab" alone. -/
theorem ignore_test_is_prefix_match_witness :
    checkFile (fun _ => none) "abc/file".toList [] [] ["ab".toList] "r".toList = .ok .Ignored ∧
    ignoreLoop "x/abc".toList ["ab".toList] = .ok false ∧
    ignoreLoop "a".toList ["ab".toList] = .ok false :=
  ⟨(ignore_test_is_prefix_match (fun _ => none) "abc/file".toList [] [] ["ab".toList]
      "r".toList).2.2.1.mpr ⟨"ab".toList, by decide, by decide⟩,
    (ignore_test_is_prefix_match (fun _ => none) "x/abc".toList [] [] ["ab".toList]
      "r".toList).2.1.mpr (by decide),
    (ignore_test_is_prefix_match (fun _ => none) "a".toList [] [] ["ab".toList]
      "r".toList).2.2.2.2.1 "ab".toList (by decide)⟩

/-- C8, as the code has it: when `md5sum` writes nothing to its standard output (the
file has disappeared or cannot be read), `computeMD5` returns the empty string, and a
candidate that is neither ignored nor known by path is classified with that digest:
it is printed as new unless the empty string is a known digest, and then it counts as
known by digest. -/
theorem checkFile_digest_failure (popen : Shell) (file : path_t) (md5 : List md5_t)
    (burnt ignored : files_set_t) (rootFolder : path_t)
    (hi : ¬ ∃ i ∈ ignored, i <+: file) (hb : file ∉ burnt)
    (hfail : popen ("md5sum \"".toList ++ path_append rootFolder file ++ "\"".toList) =
      some []) :
    computeMD5 popen (path_append rootFolder file) = .ok [] ∧
    checkFile popen file md5 burnt ignored rootFolder =
      .ok (if [] ∈ md5 then .IgnoredByMd5 else .Valid) := by
  have hc : computeMD5 popen (path_append rootFolder file) = .ok [] := by
    unfold computeMD5
    rw [hfail]
    rfl
  refine ⟨hc, ?_⟩
  rw [checkFile_eq, hc]
  simp only [hi, hb, if_false]
  by_cases hd : ([] : md5_t) ∈ md5 <;> simp only [hd, if_true, if_false]

/-- The candidate "a" when `md5sum` gives no output and one digest is known. -/
theorem checkFile_digest_failure_witness :
    checkFile (fun _ => some []) "a".toList ["0123456789abcdef0123456789abcdef".toList] [] []
      "r".toList = .ok .Valid :=
  (checkFile_digest_failure (fun _ => some []) "a".toList
    ["0123456789abcdef0123456789abcdef".toList] [] [] "r".toList
    (by decide) (by decide) rfl).2.trans (by decide)

/-- C8 fails on the code: the candidate "a" is neither ignored nor known by path,
`md5sum` gives no digest for it, and `checkFile` prints it as new. -/
theorem unreadable_file_printed_as_new :
    (¬ ∃ i ∈ ([] : files_set_t), i <+: "a".toList) ∧ "a".toList ∉ ([] : files_set_t) ∧
    computeMD5 (fun _ => some []) (path_append "r".toList "a".toList) = .ok [] ∧
    ∃ o, checkFile (fun _ => some []) "a".toList ["0123456789abcdef0123456789abcdef".toList]
        [] [] "r".toList = .ok o ∧
      o.printed "a".toList = ["a".toList] :=
  ⟨by decide, by decide, by decide, .Valid, by decide, by decide⟩


/-! ## `findFiles` -/

theorem At.mono {folder folder' : List Node} {segs : List (List Char)} {n : Node}
    (hsub : ∀ m ∈ folder, m ∈ folder') (h : At folder segs n) : At folder' segs n := by
  cases h with
  | top _ _ hmem => exact At.top _ _ (hsub _ hmem)
  | inside _ name readable children segs _ hmem hrest =>
    exact At.inside _ name readable children segs _ (hsub _ hmem) hrest

theorem At.getLast? {folder : List Node} {segs : List (List Char)} {n : Node}
    (h : At folder segs n) : segs.getLast? = some n.name := by
  induction h with
  | top _ _ _ => rfl
  | inside _ name _ _ segs _ _ hrest ih =>
    cases segs with
    | nil => cases ih
    | cons s segs => rw [List.getLast?_cons_cons]; exact ih

mutual
theorem iterate_node_sound (parent : List (List Char)) :
    ∀ (n : Node) (e : directory_entry), some e ∈ iterate_node parent n →
      ∃ segs, At [n] segs e.node ∧ e.segments = parent ++ segs
  | .file name, e, he => by
    rw [iterate_node, List.mem_singleton, Option.some.injEq] at he
    subst he
    exact ⟨[name], At.top _ (.file name) (List.mem_singleton_self _), rfl⟩
  | .other name, e, he => by
    rw [iterate_node, List.mem_singleton, Option.some.injEq] at he
    subst he
    exact ⟨[name], At.top _ (.other name) (List.mem_singleton_self _), rfl⟩
  | .link name status resolved, e, he => by
    rw [iterate_node, List.mem_singleton, Option.some.injEq] at he
    subst he
    exact ⟨[name], At.top _ (.link name status resolved) (List.mem_singleton_self _), rfl⟩
  | .dir name readable children, e, he => by
    rw [iterate_node, List.mem_cons] at he
    rcases he with he | he
    · rw [Option.some.injEq] at he
      subst he
      exact ⟨[name], At.top _ (.dir name readable children) (List.mem_singleton_self _), rfl⟩
    · cases readable with
      | false =>
        simp at he
      | true =>
        rw [if_pos rfl] at he
        obtain ⟨segs, hat, hseg⟩ := iterate_nodes_sound (parent ++ [name]) children e he
        refine ⟨name :: segs, At.inside _ name true children segs _
          (List.mem_singleton_self _) hat, ?_⟩
        rw [hseg, List.append_assoc, List.singleton_append]
theorem iterate_nodes_sound (parent : List (List Char)) :
    ∀ (ns : List Node) (e : directory_entry), some e ∈ iterate_nodes parent ns →
      ∃ segs, At ns segs e.node ∧ e.segments = parent ++ segs
  | [], e, he => by
    rw [iterate_nodes] at he
    cases he
  | n :: ns, e, he => by
    rw [iterate_nodes, List.mem_append] at he
    rcases he with he | he
    · obtain ⟨segs, hat, hseg⟩ := iterate_node_sound parent n e he
      refine ⟨segs, At.mono ?_ hat, hseg⟩
      intro m hm
      rw [List.mem_singleton] at hm
      subst hm
      exact List.mem_cons_self _ _
    · obtain ⟨segs, hat, hseg⟩ := iterate_nodes_sound parent ns e he
      exact ⟨segs, At.mono (fun m hm => List.mem_cons_of_mem _ hm) hat, hseg⟩
end

mutual
theorem iterate_node_throws (parent : List (List Char)) :
    ∀ (n : Node), none ∈ iterate_node parent n →
      ∃ segs name children, At [n] segs (.dir name false children)
  | .file name, he => by simp [iterate_node] at he
  | .other name, he => by simp [iterate_node] at he
  | .link name status resolved, he => by simp [iterate_node] at he
  | .dir name readable children, he => by
    rw [iterate_node, List.mem_cons] at he
    rcases he with he | he
    · cases he
    · cases readable with
      | false =>
        exact ⟨[name], name, children,
          At.top _ (.dir name false children) (List.mem_singleton_self _)⟩
      | true =>
        rw [if_pos rfl] at he
        obtain ⟨segs, name', ch, hat⟩ := iterate_nodes_throws (parent ++ [name]) children he
        exact ⟨name :: segs, name', ch,
          At.inside _ name true children segs _ (List.mem_singleton_self _) hat⟩
theorem iterate_nodes_throws (parent : List (List Char)) :
    ∀ (ns : List Node), none ∈ iterate_nodes parent ns →
      ∃ segs name children, At ns segs (.dir name false children)
  | [], he => by
    rw [iterate_nodes] at he
    cases he
  | n :: ns, he => by
    rw [iterate_nodes, List.mem_append] at he
    rcases he with he | he
    · obtain ⟨segs, name, ch, hat⟩ := iterate_node_throws parent n he
      refine ⟨segs, name, ch, At.mono ?_ hat⟩
      intro m hm
      rw [List.mem_singleton] at hm
      subst hm
      exact List.mem_cons_self _ _
    · obtain ⟨segs, name, ch, hat⟩ := iterate_nodes_throws parent ns he
      exact ⟨segs, name, ch, At.mono (fun m hm => List.mem_cons_of_mem _ hm) hat⟩
end

theorem flatten_eq_nil_of_forall {α : Type} (ls : List (List α)) (h : ∀ l ∈ ls, l = []) :
    ls.flatten = [] := by
  induction ls with
  | nil => rfl
  | cons l ls ih =>
    rw [List.flatten_cons, h l (List.mem_cons_self _ _),
      ih (fun l' hl' => h l' (List.mem_cons_of_mem _ hl'))]
    rfl

/-- Every interleaving holds what the threads print, each line as often as printed. -/
theorem Interleave.perm {α : Type} {ls : List (List α)} {out : List α}
    (h : Interleave ls out) : out.Perm ls.flatten := by
  induction h with
  | done ls hnil => rw [flatten_eq_nil_of_forall ls hnil]
  | step before after x l out _ ih =>
    rw [List.flatten_append, List.flatten_cons, List.cons_append]
    rw [List.flatten_append, List.flatten_cons] at ih
    exact (List.Perm.cons x ih).trans List.perm_middle.symm

theorem Interleave.cons_nil {α : Type} {ls : List (List α)} {out : List α}
    (h : Interleave ls out) : Interleave ([] :: ls) out := by
  induction h with
  | done ls hnil =>
    refine Interleave.done _ ?_
    intro l hl
    rcases List.mem_cons.mp hl with hl | hl
    · exact hl
    · exact hnil l hl
  | step before after x l out _ ih =>
    exact Interleave.step ([] :: before) after x l out ih

/-- The threads running one after the other is one of the interleavings. -/
theorem Interleave.sequential {α : Type} (ls : List (List α)) : Interleave ls ls.flatten := by
  induction ls with
  | nil => exact Interleave.done [] (fun l hl => by cases hl)
  | cons l ls ih =>
    induction l with
    | nil => exact Interleave.cons_nil ih
    | cons x l ihl => exact Interleave.step [] ls x l _ ihl

/-! ## `check_files` -/

theorem to_int_of_lt (n : Nat) (h : n < 2 ^ 31) : to_int n = (n : Int) := by
  unfold to_int
  have h1 : n % 2 ^ 32 = n := Nat.mod_eq_of_lt (by omega)
  rw [h1, if_pos h]

theorem dvd_sub_step (n i k : Nat) (hn : 1 ≤ n) :
    (i ≤ k ∧ n ∣ k - i) ↔ k = i ∨ (i + n ≤ k ∧ n ∣ k - (i + n)) := by
  constructor
  · rintro ⟨hik, hd⟩
    by_cases hk : k = i
    · exact Or.inl hk
    · right
      have hpos : 0 < k - i := by omega
      have hle : n ≤ k - i := Nat.le_of_dvd hpos hd
      refine ⟨by omega, ?_⟩
      have : k - (i + n) = k - i - n := by omega
      rw [this]
      exact Nat.dvd_sub' hd (dvd_refl n)
  · rintro (hk | ⟨hle, hd⟩)
    · subst hk
      exact ⟨le_refl _, by simp⟩
    · refine ⟨by omega, ?_⟩
      have : k - i = (k - (i + n)) + n := by omega
      rw [this]
      exact Dvd.dvd.add hd (dvd_refl n)

/-- The loop of one thread, when every call of `checkFile` returns and the indices
stay in the range of `int`: it checks the files at `i`, `i + n`, `i + 2 n`, ... below
the length of the list, each once. -/
theorem threadFunction_spec (popen : Shell) (files : files_t) (md5 : List md5_t)
    (burnt ignored : files_set_t) (rootFolder : path_t) (cls : path_t → Outcome)
    (hcls : ∀ f, checkFile popen f md5 burnt ignored rootFolder = .ok (cls f))
    (n : Nat) (hn : 1 ≤ n) (hlen : files.length + n ≤ 2 ^ 31) :
    ∀ (fuel i : Nat), files.length ≤ fuel + i →
      ∃ trace, threadFunction popen files md5 burnt ignored rootFolder fuel
          (i : Int) (files.length : Int) (n : Int) = .ok trace ∧
        (∀ c ∈ trace, files[c.index]? = some c.file ∧ c.outcome = cls c.file) ∧
        (∀ k, k ∈ trace.map Check.index ↔ i ≤ k ∧ k < files.length ∧ n ∣ k - i) ∧
        (trace.map Check.index).Nodup := by
  intro fuel
  induction fuel with
  | zero =>
    intro i hi
    have hlt : ¬ ((i : Int) < (files.length : Int)) := by omega
    refine ⟨[], ?_, ?_, ?_, List.nodup_nil⟩
    · rw [threadFunction, if_neg hlt]
    · intro c hc; cases hc
    · intro k
      simp only [List.map_nil, List.not_mem_nil, false_iff]
      omega
  | succ fuel ih =>
    intro i hi
    rw [threadFunction]
    by_cases hlt : (i : Int) < (files.length : Int)
    · have hiN : i < files.length := by omega
      have hneg : ¬ ((i : Int) < 0) := by omega
      have hget : files[(i : Int).toNat]? = some files[i] := by
        rw [Int.toNat_ofNat]
        exact List.getElem?_eq_getElem hiN
      have hov : ¬ ((i : Int) + (n : Int) > INT_MAX) := by
        unfold INT_MAX
        omega
      obtain ⟨trace, hrun, hfile, hmem, hnd⟩ := ih (i + n) (by omega)
      rw [Nat.cast_add] at hrun
      rw [if_pos hlt, if_neg hneg, hget]
      simp only [hcls, if_neg hov, hrun]
      refine ⟨_, rfl, ?_, ?_, ?_⟩
      · intro c hc
        rcases List.mem_cons.mp hc with hc | hc
        · subst hc
          exact ⟨by simp, rfl⟩
        · exact hfile c hc
      · intro k
        rw [List.map_cons, List.mem_cons, hmem k]
        simp only [Int.toNat_ofNat]
        have := dvd_sub_step n i k hn
        constructor
        · rintro (hk | ⟨h1, h2, h3⟩)
          · subst hk
            exact ⟨le_refl _, hiN, by simp⟩
          · have := this.mpr (Or.inr ⟨h1, h3⟩)
            exact ⟨this.1, h2, this.2⟩
        · rintro ⟨h1, h2, h3⟩
          rcases this.mp ⟨h1, h3⟩ with hk | ⟨h4, h5⟩
          · exact Or.inl hk
          · exact Or.inr ⟨h4, h2, h5⟩
      · rw [List.map_cons, List.nodup_cons]
        refine ⟨?_, hnd⟩
        rw [hmem]
        simp only [Int.toNat_ofNat]
        omega
    · rw [if_neg hlt]
      refine ⟨[], rfl, ?_, ?_, List.nodup_nil⟩
      · intro c hc; cases hc
      · intro k
        simp only [List.map_nil, List.not_mem_nil, false_iff]
        omega

theorem joinThreads_map_ok {α β : Type} (l : List β) (f : β → Except Fault α) (g : β → α)
    (h : ∀ x ∈ l, f x = .ok (g x)) : joinThreads (l.map f) = .ok (l.map g) := by
  induction l with
  | nil => rfl
  | cons x l ih =>
    rw [List.map_cons, List.map_cons, h x (List.mem_cons_self _ _), joinThreads,
      ih (fun y hy => h y (List.mem_cons_of_mem _ hy))]

theorem residue_iff (n w k : Nat) (hw : w < n) : (w ≤ k ∧ n ∣ k - w) ↔ k % n = w := by
  constructor
  · rintro ⟨hle, q, hq⟩
    have hk : k = w + n * q := by omega
    rw [hk, Nat.add_mul_mod_self_left, Nat.mod_eq_of_lt hw]
  · intro h
    have hdiv := Nat.mod_add_div k n
    refine ⟨by rw [← h]; exact Nat.mod_le k n, ⟨k / n, ?_⟩⟩
    omega

/-- The sweep of `check_files` when every call of `checkFile` returns, at least one
thread is started and the indices stay in the range of `int`: all threads end
normally, each call they made is the check of the file at its index, thread `w`
checks the indices below the length that leave the remainder `w` modulo the number of
threads, no index is checked by two threads, and the indices checked, all threads
together, are those of the list, each once. -/
theorem check_files_spec (popen : Shell) (files : files_t) (md5 : List md5_t)
    (burnt ignored : files_set_t) (rootFolder : path_t) (cls : path_t → Outcome)
    (hcls : ∀ f, checkFile popen f md5 burnt ignored rootFolder = .ok (cls f))
    (n fuel : Nat) (hn : 1 ≤ n) (hlen : files.length + n ≤ 2 ^ 31)
    (hfuel : files.length ≤ fuel) :
    ∃ traces, check_files popen fuel files md5 burnt ignored rootFolder n = .ok traces ∧
      (∀ t ∈ traces, ∀ c ∈ t, files[c.index]? = some c.file ∧ c.outcome = cls c.file) ∧
      (∀ w, w < n → ∃ t, traces[w]? = some t ∧
        ∀ k, k ∈ t.map Check.index ↔ k < files.length ∧ k % n = w) ∧
      (traces.map fun t => t.map Check.index).Pairwise List.Disjoint ∧
      ((traces.map fun t => t.map Check.index).flatten).Perm (List.range files.length) := by
  have H : ∀ w : Nat, ∃ trace, threadFunction popen files md5 burnt ignored rootFolder fuel
      (w : Int) (files.length : Int) (n : Int) = .ok trace ∧
      (∀ c ∈ trace, files[c.index]? = some c.file ∧ c.outcome = cls c.file) ∧
      (∀ k, k ∈ trace.map Check.index ↔ w ≤ k ∧ k < files.length ∧ n ∣ k - w) ∧
      (trace.map Check.index).Nodup :=
    fun w => threadFunction_spec popen files md5 burnt ignored rootFolder cls hcls n hn hlen
      fuel w (by omega)
  choose T hrun hfile hmem hnd using H
  have hmem' : ∀ w, w < n → ∀ k, k ∈ (T w).map Check.index ↔ k < files.length ∧ k % n = w := by
    intro w hw k
    rw [hmem w k, ← residue_iff n w k hw]
    tauto
  have hdisj : ((List.range n).map fun w => (T w).map Check.index).Pairwise List.Disjoint := by
    rw [List.pairwise_map]
    refine (List.nodup_range n).pairwise_of_forall_ne ?_
    intro a ha b hb hab k hka hkb
    rw [List.mem_range] at ha hb
    have h1 := ((hmem' a ha k).mp hka).2
    have h2 := ((hmem' b hb k).mp hkb).2
    exact hab (h1.symm.trans h2)
  refine ⟨(List.range n).map T, ?_, ?_, ?_, ?_, ?_⟩
  · unfold check_files
    rw [to_int_of_lt _ (by omega)]
    exact joinThreads_map_ok _ _ T (fun w _ => hrun w)
  · intro t ht c hc
    obtain ⟨w, -, rfl⟩ := List.mem_map.mp ht
    exact hfile w c hc
  · intro w hw
    refine ⟨T w, ?_, hmem' w hw⟩
    rw [List.getElem?_map, List.getElem?_range hw]
    rfl
  · rw [List.map_map]
    exact hdisj
  · rw [List.map_map]
    refine (List.perm_ext_iff_of_nodup ?_ (List.nodup_range _)).mpr ?_
    · rw [List.nodup_flatten]
      refine ⟨?_, hdisj⟩
      intro l hl
      obtain ⟨w, -, rfl⟩ := List.mem_map.mp hl
      exact hnd w
    · intro k
      rw [List.mem_flatten, List.mem_range]
      constructor
      · rintro ⟨l, hl, hk⟩
        obtain ⟨w, hw, rfl⟩ := List.mem_map.mp hl
        exact ((hmem' w (List.mem_range.mp hw) k).mp hk).1
      · intro hk
        have hw : k % n < n := Nat.mod_lt k (by omega)
        exact ⟨_, List.mem_map.mpr ⟨k % n, List.mem_range.mpr hw, rfl⟩,
          (hmem' (k % n) hw k).mpr ⟨hk, rfl⟩⟩

theorem flatMap_range_getElem? {α β : Type} (g : α → List β) (l : List α) :
    (List.range l.length).flatMap (fun k => ((l[k]?).map g).getD []) =
      l.flatMap g := by
  induction l using List.reverseRecOn with
  | nil => rfl
  | append_singleton l a ih =>
    rw [List.length_append, List.length_singleton, List.range_succ, List.flatMap_append,
      List.flatMap_append, ← ih]
    congr 1
    · apply List.flatMap_congr
      intro k hk
      rw [List.getElem?_append_left (List.mem_range.mp hk)]
    · simp

theorem flatten_map_flatMap {α β : Type} (f : α → List β) (ls : List (List α)) :
    (ls.map fun l => l.flatMap f).flatten = ls.flatten.flatMap f := by
  induction ls with
  | nil => rfl
  | cons l ls ih => simp [ih]

/-- Whatever the interleaving, the standard output after `check_files` holds the lines
that checking the files one after the other prints, each as often. -/
theorem check_files_output (popen : Shell) (files : files_t) (md5 : List md5_t)
    (burnt ignored : files_set_t) (rootFolder : path_t) (cls : path_t → Outcome)
    (hcls : ∀ f, checkFile popen f md5 burnt ignored rootFolder = .ok (cls f))
    (n fuel : Nat) (hn : 1 ≤ n) (hlen : files.length + n ≤ 2 ^ 31)
    (hfuel : files.length ≤ fuel) :
    ∃ traces, check_files popen fuel files md5 burnt ignored rootFolder n = .ok traces ∧
      (∃ out, Stdout traces out) ∧
      ∀ out, Stdout traces out → out.Perm (files.flatMap fun f => (cls f).printed f) := by
  obtain ⟨traces, hrun, hfile, -, -, hperm⟩ :=
    check_files_spec popen files md5 burnt ignored rootFolder cls hcls n fuel hn hlen hfuel
  refine ⟨traces, hrun, ⟨_, Interleave.sequential _⟩, ?_⟩
  intro out hout
  refine (Interleave.perm hout).trans ?_
  have h1 : (traces.map threadOutput).flatten =
      (traces.flatten.map Check.index).flatMap
        (fun k => ((files[k]?).map fun f => (cls f).printed f).getD []) := by
    unfold threadOutput
    rw [flatten_map_flatMap, List.flatMap_map]
    apply List.flatMap_congr
    intro c hc
    obtain ⟨t, ht, hct⟩ := List.mem_flatten.mp hc
    obtain ⟨hf, ho⟩ := hfile t ht c hct
    rw [hf, ho]
    rfl
  have h2 := flatMap_range_getElem? (fun f => (cls f).printed f) files
  rw [h1, List.map_flatten, ← h2]
  exact List.Perm.flatMap_right _ hperm

theorem checkFile_total (popen : Shell) (hpipe : ∀ c, popen c ≠ none) (md5 : List md5_t)
    (burnt ignored : files_set_t) (rootFolder : path_t) :
    ∃ cls : path_t → Outcome, ∀ f, checkFile popen f md5 burnt ignored rootFolder = .ok (cls f) := by
  have H : ∀ f, ∃ o, checkFile popen f md5 burnt ignored rootFolder = .ok o := by
    intro f
    rw [checkFile_eq]
    by_cases hi : ∃ i ∈ ignored, i <+: f
    · exact ⟨_, by rw [if_pos hi]⟩
    · by_cases hb : f ∈ burnt
      · exact ⟨_, by rw [if_neg hi, if_pos hb]⟩
      · rw [if_neg hi, if_neg hb]
        unfold computeMD5
        cases hp : popen ("md5sum \"".toList ++ path_append rootFolder f ++ "\"".toList) with
        | none => exact absurd hp (hpipe _)
        | some result =>
          simp only [substr_zero]
          by_cases hd : result.take 32 ∈ md5
          · exact ⟨_, by rw [if_pos hd]⟩
          · exact ⟨_, by rw [if_neg hd]⟩
  choose cls hcls using H
  exact ⟨cls, hcls⟩

theorem mem_flatMap_printed (cls : path_t → Outcome) (files : files_t) (p : path_t) :
    p ∈ files.flatMap (fun f => (cls f).printed f) ↔ p ∈ files ∧ cls p = .Valid := by
  rw [List.mem_flatMap]
  constructor
  · rintro ⟨f, hf, hp⟩
    cases hc : cls f <;> rw [hc] at hp <;> simp [Outcome.printed] at hp
    subst hp
    exact ⟨hf, hc⟩
  · rintro ⟨hf, hc⟩
    exact ⟨p, hf, by rw [hc]; simp [Outcome.printed]⟩

theorem Stdout_nil (out : List path_t) (h : Stdout [] out) : out = [] :=
  List.perm_nil.mp (Interleave.perm h)

/-- C4 fails on the code: `files.size()` is handed to the `int` parameter `end` of
`threadFunction`. For a list of `2 ^ 31` candidates the value becomes `-2 ^ 31`, the
test `i < end` fails at once in every thread, and no candidate is checked. -/
theorem check_files_narrowing (popen : Shell) (fuel : Nat) (files : files_t) (md5 : List md5_t)
    (burnt ignored : files_set_t) (rootFolder : path_t) (n : Nat)
    (h : files.length = 2 ^ 31) :
    ∃ traces, check_files popen fuel files md5 burnt ignored rootFolder n = .ok traces ∧
      traces.length = n ∧ ∀ t ∈ traces, t = [] := by
  have hend : to_int files.length = -2 ^ 31 := by
    rw [h]; decide
  have hthread : ∀ i : Nat, threadFunction popen files md5 burnt ignored rootFolder fuel
      (Int.ofNat i) (to_int files.length) (Int.ofNat n) = .ok [] := by
    intro i
    have hlt : ¬ (Int.ofNat i < to_int files.length) := by
      rw [hend]
      have : (0 : Int) ≤ Int.ofNat i := Int.ofNat_nonneg i
      omega
    cases fuel with
    | zero => rw [threadFunction, if_neg hlt]
    | succ fuel => rw [threadFunction, if_neg hlt]
  refine ⟨(List.range n).map fun _ => [], ?_, by simp, ?_⟩
  · unfold check_files
    exact joinThreads_map_ok _ _ _ (fun i _ => hthread i)
  · intro t ht
    obtain ⟨_, -, rfl⟩ := List.mem_map.mp ht
    rfl

/-- A list of `2 ^ 31` candidates swept by one thread. -/
theorem check_files_narrowing_witness :
    (List.replicate (2 ^ 31) "a".toList).length = 2 ^ 31 ∧
    ∃ traces, check_files (fun _ => some []) (2 ^ 31) (List.replicate (2 ^ 31) "a".toList)
        [] [] [] "r".toList 1 = .ok traces ∧
      traces.length = 1 ∧ ∀ t ∈ traces, t = [] :=
  ⟨List.length_replicate _ _,
    check_files_narrowing (fun _ => some []) (2 ^ 31) (List.replicate (2 ^ 31) "a".toList)
      [] [] [] "r".toList 1 (List.length_replicate _ _)⟩

/-- C5, as the code has it: when the pipe to `md5sum` opens and the indices stay in
the range of `int`, `check_files` with any number `n >= 1` of threads ends normally
and prints, in some order, the same lines as with one thread: the candidates for
which `checkFile` reaches its print statement. With `numThreads = 0` no thread is
started and nothing is printed. -/
theorem check_files_worker_count (popen : Shell) (hpipe : ∀ c, popen c ≠ none)
    (files : files_t) (md5 : List md5_t) (burnt ignored : files_set_t) (rootFolder : path_t)
    (n fuel : Nat) (hn : 1 ≤ n) (hlen : files.length + n ≤ 2 ^ 31)
    (hfuel : files.length ≤ fuel) :
    (∃ tn t1, check_files popen fuel files md5 burnt ignored rootFolder n = .ok tn ∧
      check_files popen fuel files md5 burnt ignored rootFolder 1 = .ok t1 ∧
      (∃ out, Stdout tn out) ∧
      ∀ outn, Stdout tn outn →
        (∀ out1, Stdout t1 out1 → outn.Perm out1) ∧
        ∀ p, p ∈ outn ↔
          p ∈ files ∧ checkFile popen p md5 burnt ignored rootFolder = .ok .Valid) ∧
    (check_files popen fuel files md5 burnt ignored rootFolder 0 = .ok [] ∧
      ∀ out, Stdout [] out → out = []) := by
  obtain ⟨cls, hcls⟩ := checkFile_total popen hpipe md5 burnt ignored rootFolder
  obtain ⟨tn, hrunn, hex, houtn⟩ :=
    check_files_output popen files md5 burnt ignored rootFolder cls hcls n fuel hn hlen hfuel
  obtain ⟨t1, hrun1, -, hout1⟩ :=
    check_files_output popen files md5 burnt ignored rootFolder cls hcls 1 fuel (le_refl 1)
      (by omega) hfuel
  refine ⟨⟨tn, t1, hrunn, hrun1, hex, ?_⟩, rfl, Stdout_nil⟩
  intro outn hn'
  refine ⟨fun out1 h1 => (houtn outn hn').trans (hout1 out1 h1).symm, ?_⟩
  intro p
  rw [(houtn outn hn').mem_iff, mem_flatMap_printed, hcls p]
  constructor
  · rintro ⟨hf, hc⟩
    exact ⟨hf, by rw [hc]⟩
  · rintro ⟨hf, hc⟩
    exact ⟨hf, Except.ok.inj hc⟩

/-- Three candidates, one of them known by path, swept by two threads. -/
theorem check_files_worker_count_witness :
    ∃ tn t1,
      check_files (fun _ => some "0123".toList) 3 ["a".toList, "b".toList, "c".toList] []
        ["b".toList] [] "r".toList 2 = .ok tn ∧
      check_files (fun _ => some "0123".toList) 3 ["a".toList, "b".toList, "c".toList] []
        ["b".toList] [] "r".toList 1 = .ok t1 ∧
      (∃ out, Stdout tn out) ∧
      ∀ outn, Stdout tn outn →
        (∀ out1, Stdout t1 out1 → outn.Perm out1) ∧
        ∀ p, p ∈ outn ↔
          p ∈ ["a".toList, "b".toList, "c".toList] ∧
            checkFile (fun _ => some "0123".toList) p [] ["b".toList] [] "r".toList =
              .ok .Valid :=
  (check_files_worker_count (fun _ => some "0123".toList) (fun _ h => by cases h)
    ["a".toList, "b".toList, "c".toList] [] ["b".toList] [] "r".toList 2 3
    (by decide) (by decide) (by decide)).1

/-- C5 fails on the code: for the one candidate "a", new by path and by digest, one
thread prints "a", while with `numThreads = 0` the sweep ends with nothing printed. -/
theorem check_files_zero_threads_prints_nothing :
    (∃ t1, check_files (fun _ => some "0123".toList) 1 ["a".toList] [] [] [] "r".toList 1 =
        .ok t1 ∧ Stdout t1 ["a".toList] ∧ ∀ out, Stdout t1 out → out = ["a".toList]) ∧
    (∃ t0, check_files (fun _ => some "0123".toList) 1 ["a".toList] [] [] [] "r".toList 0 =
        .ok t0 ∧ Stdout t0 [] ∧ ∀ out, Stdout t0 out → out = []) := by
  refine ⟨⟨[[⟨0, "a".toList, .Valid⟩]], by decide, Interleave.sequential _, ?_⟩,
    ⟨[], by decide, Interleave.sequential _, Stdout_nil⟩⟩
  intro out h
  exact List.perm_singleton.mp (Interleave.perm h)

/-- C10: with the single manifest record of path "x/f1.bin" (any digest `d1`), no
ignore rule, and the candidates "x/f1.bin", "x/f2.bin" (of a digest other than `d1`)
and "x/f1.bin.xz" in any order, `splitmd5` followed by `check_files` with any number
of threads from 1 to 255 ends normally and the standard output is the one line
"x/f2.bin", whatever the interleaving. -/
theorem end_to_end_reports_only_new (popen : Shell) (hpipe : ∀ c, popen c ≠ none)
    (rootFolder : path_t) (d1 d2 : md5_t) (files : files_t) (n fuel : Nat)
    (hfiles : files.Perm ["x/f1.bin".toList, "x/f2.bin".toList, "x/f1.bin.xz".toList])
    (hd2 : computeMD5 popen (path_append rootFolder "x/f2.bin".toList) = .ok d2)
    (hne : d2 ≠ d1) (hn : 1 ≤ n) (hn255 : n ≤ 255) (hfuel : 3 ≤ fuel) :
    ∃ md5 burnt traces,
      splitmd5 [⟨d1, "x/f1.bin".toList⟩] [] [] = .ok (md5, burnt) ∧
      check_files popen fuel files md5 burnt [] rootFolder n = .ok traces ∧
      (∃ out, Stdout traces out) ∧
      ∀ out, Stdout traces out → out = ["x/f2.bin".toList] := by
  have hsplit : splitmd5 [⟨d1, "x/f1.bin".toList⟩] [] [] =
      .ok ([d1], ["x/f1.bin".toList, "x/f1.bin.xz".toList]) := by
    have h3 : 3 ≤ ("x/f1.bin".toList).length := by decide
    have h64 : ("x/f1.bin".toList).length < 2 ^ 64 := by decide
    rw [splitmd5_cons_long ⟨d1, "x/f1.bin".toList⟩ [] [] [] h3 h64]
    rfl
  have hl : files.length = 3 := hfiles.length_eq
  obtain ⟨cls, hcls⟩ := checkFile_total popen hpipe [d1]
    ["x/f1.bin".toList, "x/f1.bin.xz".toList] [] rootFolder
  obtain ⟨traces, hrun, hex, hout⟩ :=
    check_files_output popen files [d1] ["x/f1.bin".toList, "x/f1.bin.xz".toList] []
      rootFolder cls hcls n fuel hn (by omega) (by omega)
  refine ⟨_, _, traces, hsplit, hrun, hex, ?_⟩
  intro out ho
  have hnoign : ∀ f : path_t, ¬ ∃ i ∈ ([] : files_set_t), i <+: f := by
    intro f h
    obtain ⟨i, hi, -⟩ := h
    cases hi
  have h1 : cls "x/f1.bin".toList = .Burnt := by
    have := hcls "x/f1.bin".toList
    rw [checkFile_eq, if_neg (hnoign _), if_pos (by decide)] at this
    exact (Except.ok.inj this).symm
  have h3 : cls "x/f1.bin.xz".toList = .Burnt := by
    have := hcls "x/f1.bin.xz".toList
    rw [checkFile_eq, if_neg (hnoign _), if_pos (by decide)] at this
    exact (Except.ok.inj this).symm
  have h2 : cls "x/f2.bin".toList = .Valid := by
    have := hcls "x/f2.bin".toList
    have hd : d2 ∉ [d1] := by
      rw [List.mem_singleton]
      exact hne
    rw [checkFile_eq, if_neg (hnoign _), if_neg (by decide), hd2] at this
    simp only [if_neg hd] at this
    exact (Except.ok.inj this).symm
  have hp := (hout out ho).trans (List.Perm.flatMap_right _ hfiles)
  simp only [List.flatMap_cons, List.flatMap_nil, h1, h2, h3, Outcome.printed,
    List.nil_append, List.append_nil] at hp
  exact List.perm_singleton.mp hp

/-- The scenario with root "r", digests "d1" and "d2", the candidates in the order
"x/f1.bin.xz", "x/f2.bin", "x/f1.bin", and two threads. -/
theorem end_to_end_reports_only_new_witness :
    ∃ md5 burnt traces,
      splitmd5 [⟨"d1".toList, "x/f1.bin".toList⟩] [] [] = .ok (md5, burnt) ∧
      check_files (fun _ => some "d2".toList) 3
        ["x/f1.bin.xz".toList, "x/f2.bin".toList, "x/f1.bin".toList] md5 burnt []
        "r".toList 2 = .ok traces ∧
      (∃ out, Stdout traces out) ∧
      ∀ out, Stdout traces out → out = ["x/f2.bin".toList] :=
  end_to_end_reports_only_new (fun _ => some "d2".toList) (fun _ h => by cases h) "r".toList
    "d1".toList "d2".toList ["x/f1.bin.xz".toList, "x/f2.bin".toList, "x/f1.bin".toList] 2 3
    (by decide) (by decide) (by decide) (by decide) (by decide) (by decide)

end FilesToBurn
